import Mathlib

set_option maxHeartbeats 1000000

/-!
Shallow embedding of the extractive summarizer implemented by
`summarize_text` in `src/youtube_summarizer.py`.

The spaCy tokenizer/segmenter is an external capability: the embedding
takes the segmentation result directly as a list of sentences, each a
list of token surface strings; the document token stream is their
concatenation (in spaCy, iterating the document yields exactly the
tokens of its sentences in order).  The stopword set is injected
configuration (`spacy.lang.en.stop_words.STOP_WORDS` in the source) and
is a parameter; `string.punctuation` is the fixed Python constant and is
embedded concretely.  Python `dict`s are modelled as insertion-ordered
association lists, floats as rationals, and `heapq.nlargest` (documented
as `sorted(iterable, key=key, reverse=True)[:n]`) as a stable descending
insertion sort followed by `take`.
-/

/-- Lookup in an insertion-ordered association list (Python dict lookup:
first — and, keys being unique, only — entry with the given key). -/
def getVal {α β : Type} [DecidableEq α] (k : α) : List (α × β) → Option β
  | [] => none
  | (a, v) :: rest => if a = k then some v else getVal k rest

/-- Check whether one character list is a prefix of another. -/
def charsPref : List Char → List Char → Bool
  | [], _ => true
  | _ :: _, [] => false
  | a :: as, b :: bs => a == b && charsPref as bs

/-- Check whether a character list occurs as a contiguous sublist. -/
def charsSub (n : List Char) : List Char → Bool
  | [] => n.isEmpty
  | b :: bs => charsPref n (b :: bs) || charsSub n bs

/-- Python substring containment: `sub in s` on strings tests whether
`sub` occurs contiguously inside `s` (the empty string is contained in
every string). -/
def strIn (sub s : String) : Bool := charsSub sub.data s.data

/-- The Python constant `string.punctuation`. -/
def punctString : String := "!\"#$%&\x27()*+,-./:;<=>?@[\\]^_\x60\x7b|\x7d~"

/-- Whitespace characters removed by Python `str.strip()` (ASCII part). -/
def pyIsSpace (c : Char) : Bool :=
  c == ' ' || c == '\t' || c == '\n' || c == '\r' || c == '\x0b' || c == '\x0c'

/-- Python `str.strip()`: drop leading and trailing whitespace. -/
def pyStrip (s : String) : String :=
  String.mk (((s.data.dropWhile pyIsSpace).reverse.dropWhile pyIsSpace).reverse)

/-- Python `str.lower()` (ASCII case mapping), applied characterwise so
that it evaluates by kernel reduction. -/
def lowerStr (s : String) : String := String.mk (s.data.map Char.toLower)

/-- The filter of the frequency loop: a token is skipped when its
lowercased form is in the stopword list or is contained in
`string.punctuation` (`word_text not in list(STOP_WORDS) and word_text
not in punctuation` in the source, negated). -/
def isSkippedTok (sw : List String) (t : String) : Bool :=
  sw.contains (lowerStr t) || strIn (lowerStr t) punctString

/-- Insert-or-increment on the frequency dict: `word_frequencies[k] = 1`
for a fresh key (appended, preserving insertion order), `+= 1` for an
existing key. -/
def bump (k : String) : List (String × Nat) → List (String × Nat)
  | [] => [(k, 1)]
  | (a, n) :: rest => if a = k then (a, n + 1) :: rest else (a, n) :: bump k rest

/-- The frequency-counting loop (`for word in document:` in
`summarize_text`): skipped tokens leave the dict unchanged, surviving
tokens are counted under their exact surface form. -/
def countLoop (sw : List String) : List String → List (String × Nat) → List (String × Nat)
  | [], acc => acc
  | t :: ts, acc =>
      countLoop sw ts (if isSkippedTok sw t then acc else bump t acc)

/-- The `word_frequencies` dict of `summarize_text`, built from the
token stream of the document. -/
def word_frequencies (sw : List String) (tokens : List String) : List (String × Nat) :=
  countLoop sw tokens []

/-- Python `max(word_frequencies.values())` (0 on the empty dict, which
the source never reaches: it is guarded by the non-empty check). -/
def max_frequency : List (String × Nat) → Nat
  | [] => 0
  | p :: rest => max p.2 (max_frequency rest)

/-- The normalisation loop: every raw count is divided by the maximum
raw count, in place, preserving key order. -/
def normalized_frequencies (wf : List (String × Nat)) : List (String × ℚ) :=
  wf.map (fun p => (p.1, (p.2 : ℚ) / (max_frequency wf : ℚ)))

/-- Insert-or-add on the sentence-score dict (`sentence_score[sentence]
= w` for a fresh sentence, `+= w` otherwise); sentences are identified
by their position index in the segmentation. -/
def addScore (i : Nat) (v : ℚ) : List (Nat × ℚ) → List (Nat × ℚ)
  | [] => [(i, v)]
  | (j, s) :: rest =>
      if j = i then (j, s + v) :: rest else (j, s) :: addScore i v rest

/-- The inner loop of sentence scoring (`for word in sentence:`): each
token whose lowercased form is a key of the weight dict adds that weight
to the entry of that sentence. -/
def scoreWords (w : List (String × ℚ)) (i : Nat) : List String → List (Nat × ℚ) → List (Nat × ℚ)
  | [], acc => acc
  | t :: ts, acc =>
      scoreWords w i ts
        (match getVal (lowerStr t) w with
         | none => acc
         | some v => addScore i v acc)

/-- The outer loop of sentence scoring (`for sentence in
sentence_tokens:`), with `i` the index of the next sentence. -/
def scoreLoop (w : List (String × ℚ)) (i : Nat) : List (List String) → List (Nat × ℚ) → List (Nat × ℚ)
  | [], acc => acc
  | s :: rest, acc => scoreLoop w (i + 1) rest (scoreWords w i s acc)

/-- The `sentence_score` dict of `summarize_text`, keyed by sentence
position index. -/
def sentence_score (w : List (String × ℚ)) (sentences : List (List String)) : List (Nat × ℚ) :=
  scoreLoop w 0 sentences []

/-- Python `int()` on a rational: truncation toward zero. -/
def truncQ (q : ℚ) : Int := if 0 ≤ q then q.floor else q.ceil

/-- The `select_length` of `summarize_text`:
`max(1, int(len(sentence_tokens) * summary_length))`. -/
def select_length (n : Nat) (f : ℚ) : Nat :=
  max 1 (truncQ ((n : ℚ) * f)).toNat

/-- Descending insert used to model the stable sort underlying
`heapq.nlargest`: a new element goes after every element of greater or
equal score already present. -/
def insDesc (x : Nat × ℚ) : List (Nat × ℚ) → List (Nat × ℚ)
  | [] => [x]
  | y :: ys => if y.2 < x.2 then x :: y :: ys else y :: insDesc x ys

/-- Stable descending sort by score: elements are inserted in traversal
order, each after all equal-scored elements already placed, so ties keep
the insertion order of the dict — exactly the order `sorted(iterable,
key=key, reverse=True)` (and hence `heapq.nlargest`) produces. -/
def sortLoop : List (Nat × ℚ) → List (Nat × ℚ) → List (Nat × ℚ)
  | [], acc => acc
  | x :: xs, acc => sortLoop xs (insDesc x acc)

/-- The call `heapq.nlargest(k, sentence_score, key=sentence_score.get)`:
the first `k` entries of the stable descending sort of the dict. -/
def nlargestScores (k : Nat) (scores : List (Nat × ℚ)) : List (Nat × ℚ) :=
  (sortLoop scores []).take k

/-- The `summary_sentences` of `summarize_text`, as sentence indices in
emission order. -/
def summary_sentences (k : Nat) (scores : List (Nat × ℚ)) : List Nat :=
  (nlargestScores k scores).map Prod.fst

/-- Outcome of `summarize_text`: the three distinct error strings the
source returns, or a successful summary, represented by the indices of
the selected sentences in emission order. -/
inductive SummaryResult where
  | emptyInput
  | noMeaningfulContent
  | scoringFailed
  | summary (sentences : List Nat)
deriving DecidableEq

/-- The body of `summarize_text` after the empty-text guard, operating
on the segmentation `sentences` of the input text. -/
def summarize_core (sw : List String) (sentences : List (List String)) (f : ℚ) : SummaryResult :=
  let wf := word_frequencies sw sentences.flatten
  if wf = [] then SummaryResult.noMeaningfulContent
  else
    let scores := sentence_score (normalized_frequencies wf) sentences
    if scores = [] then SummaryResult.scoringFailed
    else SummaryResult.summary (summary_sentences (select_length sentences.length f) scores)

/-- The function `summarize_text(text, nlp, summary_length)`: the
segmenter `seg` (the injected spaCy pipeline) is only consulted after
the `if not text.strip()` guard. -/
def summarize_text (seg : String → List (List String)) (sw : List String)
    (text : String) (f : ℚ) : SummaryResult :=
  if pyStrip text = "" then SummaryResult.emptyInput
  else summarize_core sw (seg text) f

/-- Sum of the looked-up weights of the tokens of a sentence (tokens whose
lowercased form is absent from the weight dict contribute 0); used to
state the accumulated score of a sentence. -/
def sentSum (w : List (String × ℚ)) : List String → ℚ
  | [] => 0
  | t :: ts => (getVal (lowerStr t) w).getD 0 + sentSum w ts

/-- The claim-side reading of the punctuation filter: the token is a
single character drawn from `string.punctuation`. -/
def singlePunctChar (s : String) : Bool := s.length == 1 && strIn s punctString

/-- Score of sentence `i` of the given input under the full pipeline
(0 when the sentence is absent from the score dict). -/
def scoreOf (sw : List String) (sents : List (List String)) (i : Nat) : ℚ :=
  (getVal i (sentence_score (normalized_frequencies (word_frequencies sw sents.flatten)) sents)).getD 0

example : summarize_core ["the"] [["cats"], ["the"], ["the"]] 1 = SummaryResult.summary [0] := by
  with_unfolding_all decide

example : summarize_core [] [["cats", "dogs"], ["cats"]] 1 = SummaryResult.summary [0, 1] := by
  with_unfolding_all decide

example : summarize_text (fun _ => [["Cats"]]) [] "Cats" (3/10) = SummaryResult.scoringFailed := by
  with_unfolding_all decide

example : word_frequencies [] ["#$"] = [] := by decide



/-! Basic association-list lemmas. -/

theorem getVal_map_val {α β γ : Type} [DecidableEq α] (f : β → γ) (k : α)
    (l : List (α × β)) :
    getVal k (l.map (fun p => (p.1, f p.2))) = (getVal k l).map f := by
  induction l with
  | nil => simp [getVal]
  | cons p rest ih =>
    by_cases h : p.1 = k
    · simp [getVal, h]
    · simp [getVal, h, ih]

theorem getVal_isSome_iff {α β : Type} [DecidableEq α] (k : α) (l : List (α × β)) :
    (getVal k l).isSome ↔ k ∈ l.map Prod.fst := by
  induction l with
  | nil => simp [getVal]
  | cons p rest ih =>
    by_cases h : p.1 = k
    · simp [getVal, h]
    · simp [getVal, h, ih, Ne.symm h]

theorem getVal_mem {α β : Type} [DecidableEq α] {k : α} {v : β} :
    ∀ {l : List (α × β)}, getVal k l = some v → (k, v) ∈ l := by
  intro l
  induction l with
  | nil => simp [getVal]
  | cons p rest ih =>
    by_cases h : p.1 = k
    · subst h
      simp [getVal]
      intro hv
      exact Or.inl (Prod.ext rfl hv.symm)
    · simp [getVal, h]
      intro hv
      exact Or.inr (ih hv)

theorem getVal_of_mem_nodup {α β : Type} [DecidableEq α] {k : α} {v : β}
    {l : List (α × β)} (hn : (l.map Prod.fst).Nodup) (hm : (k, v) ∈ l) :
    getVal k l = some v := by
  induction l with
  | nil => simp at hm
  | cons p rest ih =>
    simp only [List.map_cons, List.nodup_cons] at hn
    rcases List.mem_cons.mp hm with h | h
    · subst h
      simp [getVal]
    · have hk : p.1 ≠ k := by
        intro he
        exact hn.1 (he ▸ List.mem_map_of_mem Prod.fst h)
      simp [getVal, hk]
      exact ih hn.2 h

theorem getVal_bump_self (k : String) (l : List (String × Nat)) :
    getVal k (bump k l) = some ((getVal k l).getD 0 + 1) := by
  induction l with
  | nil => simp [bump, getVal]
  | cons p rest ih =>
    obtain ⟨a, n⟩ := p
    by_cases h : a = k
    · subst h
      simp [bump, getVal]
    · simp [bump, getVal, h, ih]

theorem getVal_bump_ne (k q : String) (l : List (String × Nat)) (h : q ≠ k) :
    getVal q (bump k l) = getVal q l := by
  induction l with
  | nil => simp [bump, getVal, Ne.symm h]
  | cons p rest ih =>
    obtain ⟨a, n⟩ := p
    by_cases ha : a = k
    · subst ha
      have haq : a ≠ q := Ne.symm h
      simp [bump, getVal, haq]
    · simp [bump, getVal, ha, ih]

theorem bump_ne_nil (k : String) (l : List (String × Nat)) : bump k l ≠ [] := by
  cases l with
  | nil => simp [bump]
  | cons p rest =>
    obtain ⟨a, n⟩ := p
    by_cases h : a = k <;> simp [bump, h]

theorem bump_counts_ge_one (k : String) (l : List (String × Nat))
    (h : ∀ p ∈ l, 1 ≤ p.2) : ∀ p ∈ bump k l, 1 ≤ p.2 := by
  induction l with
  | nil =>
    intro p hp
    simp [bump] at hp
    simp [hp]
  | cons q rest ih =>
    obtain ⟨a, n⟩ := q
    intro p hp
    by_cases ha : a = k
    · subst ha
      simp [bump] at hp
      rcases hp with hp | hp
      · simp [hp]
      · exact h p (List.mem_cons_of_mem _ hp)
    · simp [bump, ha] at hp
      rcases hp with hp | hp
      · exact h p (hp ▸ List.mem_cons_self _ _)
      · exact ih (fun q hq => h q (List.mem_cons_of_mem _ hq)) p hp

/-! Lemmas about the score dict update `addScore`. -/

theorem getVal_addScore_self (i : Nat) (v : ℚ) (l : List (Nat × ℚ)) :
    getVal i (addScore i v l) = some ((getVal i l).getD 0 + v) := by
  induction l with
  | nil => simp [addScore, getVal]
  | cons p rest ih =>
    obtain ⟨j, s⟩ := p
    by_cases h : j = i
    · subst h
      simp [addScore, getVal]
    · simp [addScore, getVal, h, ih]

theorem getVal_addScore_ne (i q : Nat) (v : ℚ) (l : List (Nat × ℚ)) (h : q ≠ i) :
    getVal q (addScore i v l) = getVal q l := by
  induction l with
  | nil => simp [addScore, getVal, Ne.symm h]
  | cons p rest ih =>
    obtain ⟨j, s⟩ := p
    by_cases hj : j = i
    · subst hj
      have hq : j ≠ q := Ne.symm h
      simp [addScore, getVal, hq]
    · simp [addScore, getVal, hj, ih]

theorem addScore_keys_mem (i : Nat) (v : ℚ) (l : List (Nat × ℚ))
    (h : i ∈ l.map Prod.fst) :
    (addScore i v l).map Prod.fst = l.map Prod.fst := by
  induction l with
  | nil => simp at h
  | cons p rest ih =>
    obtain ⟨j, s⟩ := p
    by_cases hj : j = i
    · subst hj
      simp [addScore]
    · rw [List.map_cons] at h
      rcases List.mem_cons.mp h with h1 | h1
      · exact absurd h1.symm hj
      · simp [addScore, hj, ih h1]

theorem addScore_keys_notMem (i : Nat) (v : ℚ) (l : List (Nat × ℚ))
    (h : i ∉ l.map Prod.fst) :
    (addScore i v l).map Prod.fst = l.map Prod.fst ++ [i] := by
  induction l with
  | nil => simp [addScore]
  | cons p rest ih =>
    obtain ⟨j, s⟩ := p
    rw [List.map_cons] at h
    have hji : j ≠ i := fun he => h (by rw [he]; exact List.mem_cons_self _ _)
    have h2 : i ∉ rest.map Prod.fst := fun hm => h (List.mem_cons_of_mem _ hm)
    simp [addScore, hji, ih h2]

theorem addScore_pos (i : Nat) (v : ℚ) (l : List (Nat × ℚ)) (hv : 0 < v)
    (h : ∀ p ∈ l, 0 < p.2) : ∀ p ∈ addScore i v l, 0 < p.2 := by
  induction l with
  | nil =>
    intro p hp
    simp [addScore] at hp
    simp [hp, hv]
  | cons q rest ih =>
    obtain ⟨j, s⟩ := q
    intro p hp
    by_cases hj : j = i
    · subst hj
      simp [addScore] at hp
      rcases hp with hp | hp
      · have hs := h (j, s) (List.mem_cons_self _ _)
        simp at hs
        simp [hp]
        positivity
      · exact h p (List.mem_cons_of_mem _ hp)
    · simp [addScore, hj] at hp
      rcases hp with hp | hp
      · exact h p (hp ▸ List.mem_cons_self _ _)
      · exact ih (fun q hq => h q (List.mem_cons_of_mem _ hq)) p hp

/-! Lemmas about the frequency-counting loop. -/

theorem countLoop_append (sw : List String) (ts us : List String) :
    ∀ acc, countLoop sw (ts ++ us) acc = countLoop sw us (countLoop sw ts acc) := by
  induction ts with
  | nil => intro acc; simp [countLoop]
  | cons t ts ih => intro acc; simp [countLoop, ih]

theorem countLoop_counts_ge_one (sw : List String) (ts : List String) :
    ∀ acc, (∀ p ∈ acc, 1 ≤ p.2) → ∀ p ∈ countLoop sw ts acc, 1 ≤ p.2 := by
  induction ts with
  | nil => intro acc h; simpa [countLoop] using h
  | cons t ts ih =>
    intro acc h
    by_cases hs : isSkippedTok sw t
    · simpa [countLoop, hs] using ih acc h
    · simpa [countLoop, hs] using ih (bump t acc) (bump_counts_ge_one t acc h)

theorem countLoop_isSome (sw : List String) (t : String) (ts : List String) :
    ∀ acc, ((getVal t acc).isSome ∨ (t ∈ ts ∧ isSkippedTok sw t = false)) →
      (getVal t (countLoop sw ts acc)).isSome := by
  induction ts with
  | nil =>
    intro acc h
    simp [countLoop]
    rcases h with h | h
    · exact h
    · simp at h
  | cons u ts ih =>
    intro acc h
    rcases h with h | h
    · by_cases hs : isSkippedTok sw u
      · simp only [countLoop, hs, if_true]
        exact ih acc (Or.inl h)
      · simp only [countLoop, hs, if_false]
        apply ih (bump u acc)
        left
        by_cases hu : t = u
        · subst hu
          simp [getVal_bump_self]
        · rwa [getVal_bump_ne u t acc hu]
    · rcases List.mem_cons.mp h.1 with hu | hu
      · subst hu
        simp only [countLoop, h.2, if_false]
        apply ih (bump t acc)
        left
        simp [getVal_bump_self]
      · by_cases hs : isSkippedTok sw u
        · simp only [countLoop, hs, if_true]
          exact ih acc (Or.inr ⟨hu, h.2⟩)
        · simp only [countLoop, hs, if_false]
          exact ih (bump u acc) (Or.inr ⟨hu, h.2⟩)

theorem countLoop_all_skipped (sw : List String) (ts : List String)
    (h : ∀ t ∈ ts, isSkippedTok sw t = true) : ∀ acc, countLoop sw ts acc = acc := by
  induction ts with
  | nil => intro acc; simp [countLoop]
  | cons t ts ih =>
    intro acc
    have ht := h t (List.mem_cons_self _ _)
    simp only [countLoop, ht, if_true]
    exact ih (fun u hu => h u (List.mem_cons_of_mem _ hu)) acc

/-! Lemmas about `max_frequency` and `normalized_frequencies`. -/

theorem le_max_frequency (l : List (String × Nat)) : ∀ p ∈ l, p.2 ≤ max_frequency l := by
  induction l with
  | nil => simp
  | cons q rest ih =>
    intro p hp
    rcases List.mem_cons.mp hp with h | h
    · subst h
      simp [max_frequency]
    · exact le_trans (ih p h) (by simp [max_frequency])

theorem max_frequency_mem (l : List (String × Nat)) (h : l ≠ []) :
    ∃ p ∈ l, p.2 = max_frequency l := by
  induction l with
  | nil => exact absurd rfl h
  | cons q rest ih =>
    by_cases hr : rest = []
    · subst hr
      exact ⟨q, List.mem_cons_self _ _, by simp [max_frequency]⟩
    · obtain ⟨p, hp, hmax⟩ := ih hr
      rcases Nat.le_total q.2 (max_frequency rest) with hle | hle
      · exact ⟨p, List.mem_cons_of_mem _ hp, by simp [max_frequency, Nat.max_eq_right hle, hmax]⟩
      · exact ⟨q, List.mem_cons_self _ _, by simp [max_frequency, Nat.max_eq_left hle]⟩

theorem max_frequency_pos (l : List (String × Nat)) (h : ∀ p ∈ l, 1 ≤ p.2)
    (hne : l ≠ []) : 1 ≤ max_frequency l := by
  obtain ⟨p, hp, hmax⟩ := max_frequency_mem l hne
  exact hmax ▸ h p hp

theorem getVal_normalized (k : String) (wf : List (String × Nat)) :
    getVal k (normalized_frequencies wf) =
      Option.map (fun c : Nat => (c : ℚ) / (max_frequency wf : ℚ)) (getVal k wf) := by
  unfold normalized_frequencies
  exact getVal_map_val (fun c : Nat => (c : ℚ) / (max_frequency wf : ℚ)) k wf

/-! Idempotence of ASCII lowercasing. -/

theorem charToLower_toNat (c : Char) (h : c.toNat ≥ 65 ∧ c.toNat ≤ 90) :
    (Char.toLower c).toNat = c.toNat + 32 := by
  have hv : Nat.isValidChar (c.toNat + 32) := Or.inl (by omega)
  unfold Char.toLower
  rw [if_pos h, Char.ofNat, dif_pos hv]
  rfl

theorem charToLower_eq (c : Char) :
    Char.toLower c = if c.toNat ≥ 65 ∧ c.toNat ≤ 90 then Char.ofNat (c.toNat + 32) else c := rfl

theorem charToLower_idem (c : Char) : c.toLower.toLower = c.toLower := by
  by_cases h : c.toNat ≥ 65 ∧ c.toNat ≤ 90
  · have ht := charToLower_toNat c h
    have hno : ¬((c.toLower.toNat ≥ 65) ∧ (c.toLower.toNat ≤ 90)) := by
      rw [ht]
      omega
    rw [charToLower_eq (Char.toLower c), if_neg hno]
  · have hcc : c.toLower = c := by rw [charToLower_eq, if_neg h]
    rw [hcc, hcc]

theorem lowerStr_idem (s : String) : lowerStr (lowerStr s) = lowerStr s := by
  unfold lowerStr
  have hc : Char.toLower ∘ Char.toLower = Char.toLower := funext charToLower_idem
  simp [List.map_map, hc]

/-! Lemmas about the sentence-scoring loops. -/

theorem scoreWords_getVal_ne (w : List (String × ℚ)) (i q : Nat) (hq : q ≠ i) :
    ∀ (s : List String) (acc : List (Nat × ℚ)),
      getVal q (scoreWords w i s acc) = getVal q acc := by
  intro s
  induction s with
  | nil => intro acc; simp [scoreWords]
  | cons t ts ih =>
    intro acc
    cases hm : getVal (lowerStr t) w with
    | none => simp only [scoreWords, hm]; exact ih acc
    | some v =>
      simp only [scoreWords, hm]
      rw [ih (addScore i v acc), getVal_addScore_ne i q v acc hq]

theorem scoreWords_keys (w : List (String × ℚ)) (i : Nat) :
    ∀ (s : List String) (acc : List (Nat × ℚ)),
      (scoreWords w i s acc).map Prod.fst = acc.map Prod.fst ∨
        (i ∉ acc.map Prod.fst ∧
          (scoreWords w i s acc).map Prod.fst = acc.map Prod.fst ++ [i]) := by
  intro s
  induction s with
  | nil => intro acc; left; simp [scoreWords]
  | cons t ts ih =>
    intro acc
    cases hm : getVal (lowerStr t) w with
    | none => simpa only [scoreWords, hm] using ih acc
    | some v =>
      simp only [scoreWords, hm]
      by_cases hmem : i ∈ acc.map Prod.fst
      · have hk := addScore_keys_mem i v acc hmem
        rcases ih (addScore i v acc) with h | h
        · left; rw [h, hk]
        · exact absurd (hk ▸ hmem) h.1
      · have hk := addScore_keys_notMem i v acc hmem
        rcases ih (addScore i v acc) with h | h
        · right; exact ⟨hmem, by rw [h, hk]⟩
        · exact absurd (by rw [hk]; simp) h.1

theorem scoreWords_getVal_self (w : List (String × ℚ)) (i : Nat) :
    ∀ (s : List String) (acc : List (Nat × ℚ)),
      getVal i (scoreWords w i s acc) =
        match getVal i acc with
        | some u => some (u + sentSum w s)
        | none =>
            if s.any (fun t => (getVal (lowerStr t) w).isSome) then some (sentSum w s)
            else none := by
  intro s
  induction s with
  | nil =>
    intro acc
    cases h : getVal i acc <;> simp [scoreWords, sentSum, h]
  | cons t ts ih =>
    intro acc
    cases hm : getVal (lowerStr t) w with
    | none =>
      rw [show scoreWords w i (t :: ts) acc = scoreWords w i ts acc by
        simp only [scoreWords, hm]]
      rw [ih acc]
      cases h : getVal i acc <;> simp [sentSum, hm, h]
    | some v =>
      rw [show scoreWords w i (t :: ts) acc = scoreWords w i ts (addScore i v acc) by
        simp only [scoreWords, hm]]
      rw [ih (addScore i v acc), getVal_addScore_self]
      cases h : getVal i acc <;> simp [sentSum, hm, h, add_assoc]

theorem scoreWords_pos (w : List (String × ℚ)) (i : Nat)
    (hw : ∀ p ∈ w, 0 < p.2) :
    ∀ (s : List String) (acc : List (Nat × ℚ)),
      (∀ p ∈ acc, 0 < p.2) → ∀ p ∈ scoreWords w i s acc, 0 < p.2 := by
  intro s
  induction s with
  | nil => intro acc h; simpa [scoreWords] using h
  | cons t ts ih =>
    intro acc h
    cases hm : getVal (lowerStr t) w with
    | none =>
      simp only [scoreWords, hm]
      exact ih acc h
    | some v =>
      simp only [scoreWords, hm]
      have hv : 0 < v := hw (lowerStr t, v) (getVal_mem hm)
      exact ih (addScore i v acc) (addScore_pos i v acc hv h)

theorem scoreWords_congr (w1 w2 : List (String × ℚ))
    (h : ∀ t : String, getVal (lowerStr t) w1 = getVal (lowerStr t) w2) (i : Nat) :
    ∀ (s : List String) (acc : List (Nat × ℚ)),
      scoreWords w1 i s acc = scoreWords w2 i s acc := by
  intro s
  induction s with
  | nil => intro acc; simp [scoreWords]
  | cons t ts ih =>
    intro acc
    simp only [scoreWords, h t]
    exact ih _

theorem scoreLoop_getVal_lt (w : List (String × ℚ)) :
    ∀ (sents : List (List String)) (i : Nat) (acc : List (Nat × ℚ)) (j : Nat),
      j < i → getVal j (scoreLoop w i sents acc) = getVal j acc := by
  intro sents
  induction sents with
  | nil => intro i acc j _; simp [scoreLoop]
  | cons s rest ih =>
    intro i acc j hj
    simp only [scoreLoop]
    rw [ih (i + 1) _ j (Nat.lt_succ_of_lt hj),
      scoreWords_getVal_ne w i j (Nat.ne_of_lt hj) s acc]

theorem scoreLoop_keys (w : List (String × ℚ)) :
    ∀ (sents : List (List String)) (i : Nat) (acc : List (Nat × ℚ)),
      (acc.map Prod.fst).Pairwise (· < ·) → (∀ k ∈ acc.map Prod.fst, k < i) →
      ((scoreLoop w i sents acc).map Prod.fst).Pairwise (· < ·) ∧
        ∀ k ∈ (scoreLoop w i sents acc).map Prod.fst, k < i + sents.length := by
  intro sents
  induction sents with
  | nil =>
    intro i acc hp hb
    simp only [scoreLoop, List.length_nil, Nat.add_zero]
    exact ⟨hp, hb⟩
  | cons s rest ih =>
    intro i acc hp hb
    simp only [scoreLoop]
    have hkeys := scoreWords_keys w i s acc
    have hstep : ((scoreWords w i s acc).map Prod.fst).Pairwise (· < ·) ∧
        ∀ k ∈ (scoreWords w i s acc).map Prod.fst, k < i + 1 := by
      rcases hkeys with h | h
      · rw [h]
        exact ⟨hp, fun k hk => Nat.lt_succ_of_lt (hb k hk)⟩
      · rw [h.2]
        constructor
        · rw [List.pairwise_append]
          exact ⟨hp, List.pairwise_singleton _ _,
            fun a ha b hbm => by simp at hbm; exact hbm ▸ hb a ha⟩
        · intro k hk
          rcases List.mem_append.mp hk with hk | hk
          · exact Nat.lt_succ_of_lt (hb k hk)
          · simp at hk
            omega
    have := ih (i + 1) (scoreWords w i s acc) hstep.1 hstep.2
    refine ⟨this.1, fun k hk => ?_⟩
    have := this.2 k hk
    simp only [List.length_cons]
    omega

theorem scoreLoop_getVal_at (w : List (String × ℚ)) :
    ∀ (sents : List (List String)) (j : Nat) (s : List String) (i : Nat)
      (acc : List (Nat × ℚ)),
      sents.get? j = some s → getVal (i + j) acc = none →
      getVal (i + j) (scoreLoop w i sents acc) =
        (if s.any (fun t => (getVal (lowerStr t) w).isSome) then some (sentSum w s)
         else none) := by
  intro sents
  induction sents with
  | nil => intro j s i acc h _; simp at h
  | cons s0 rest ih =>
    intro j s i acc hget hnone
    cases j with
    | zero =>
      simp only [List.get?] at hget
      injection hget with hs
      subst hs
      simp only [Nat.add_zero] at hnone ⊢
      simp only [scoreLoop]
      rw [scoreLoop_getVal_lt w rest (i + 1) _ i (Nat.lt_succ_self i)]
      rw [scoreWords_getVal_self w i s0 acc, hnone]
    | succ j =>
      simp only [List.get?] at hget
      have hidx : i + (j + 1) = (i + 1) + j := by omega
      simp only [scoreLoop]
      rw [hidx]
      apply ih j s (i + 1) (scoreWords w i s0 acc) hget
      rw [scoreWords_getVal_ne w i ((i + 1) + j) (by omega) s0 acc, ← hidx]
      exact hnone

theorem scoreLoop_pos (w : List (String × ℚ)) (hw : ∀ p ∈ w, 0 < p.2) :
    ∀ (sents : List (List String)) (i : Nat) (acc : List (Nat × ℚ)),
      (∀ p ∈ acc, 0 < p.2) → ∀ p ∈ scoreLoop w i sents acc, 0 < p.2 := by
  intro sents
  induction sents with
  | nil => intro i acc h; simpa [scoreLoop] using h
  | cons s rest ih =>
    intro i acc h
    simp only [scoreLoop]
    exact ih (i + 1) _ (scoreWords_pos w i hw s acc h)

theorem scoreLoop_congr (w1 w2 : List (String × ℚ))
    (h : ∀ t : String, getVal (lowerStr t) w1 = getVal (lowerStr t) w2) :
    ∀ (sents : List (List String)) (i : Nat) (acc : List (Nat × ℚ)),
      scoreLoop w1 i sents acc = scoreLoop w2 i sents acc := by
  intro sents
  induction sents with
  | nil => intro i acc; simp [scoreLoop]
  | cons s rest ih =>
    intro i acc
    simp only [scoreLoop]
    rw [scoreWords_congr w1 w2 h i s acc]
    exact ih (i + 1) _

theorem sentence_score_getVal (w : List (String × ℚ)) (sents : List (List String))
    (j : Nat) (s : List String) (h : sents.get? j = some s) :
    getVal j (sentence_score w sents) =
      (if s.any (fun t => (getVal (lowerStr t) w).isSome) then some (sentSum w s)
       else none) := by
  have := scoreLoop_getVal_at w sents j s 0 [] h (by simp [getVal])
  simpa using this

theorem sentence_score_keys (w : List (String × ℚ)) (sents : List (List String)) :
    ((sentence_score w sents).map Prod.fst).Pairwise (· < ·) ∧
      ∀ k ∈ (sentence_score w sents).map Prod.fst, k < sents.length := by
  have := scoreLoop_keys w sents 0 [] (by simp) (by simp)
  simpa using this

theorem sentence_score_length_le (w : List (String × ℚ)) (sents : List (List String)) :
    (sentence_score w sents).length ≤ sents.length := by
  obtain ⟨hp, hb⟩ := sentence_score_keys w sents
  have hnd : ((sentence_score w sents).map Prod.fst).Nodup :=
    hp.imp (fun h => Nat.ne_of_lt h)
  have hsub : ((sentence_score w sents).map Prod.fst).toFinset ⊆ Finset.range sents.length := by
    intro x hx
    exact Finset.mem_range.mpr (hb x (List.mem_toFinset.mp hx))
  have hcard := Finset.card_le_card hsub
  rw [List.toFinset_card_of_nodup hnd, Finset.card_range] at hcard
  simpa using hcard

/-! Lemmas about the stable descending selection. -/

/-- Emission order of `nlargest`: strictly greater score first, ties
resolved toward the entry that occurs earlier in the score dict (for
`sentence_score`, the sentence encountered earlier, i.e. smaller index). -/
def rankRel (a b : Nat × ℚ) : Prop := b.2 < a.2 ∨ (a.2 = b.2 ∧ a.1 < b.1)

theorem insDesc_perm (x : Nat × ℚ) (l : List (Nat × ℚ)) : (insDesc x l).Perm (x :: l) := by
  induction l with
  | nil => simp [insDesc]
  | cons y ys ih =>
    by_cases h : y.2 < x.2
    · simp [insDesc, h]
    · simp only [insDesc, h, if_false]
      exact (ih.cons y).trans (List.Perm.swap x y ys)

theorem mem_insDesc (z x : Nat × ℚ) (l : List (Nat × ℚ)) :
    z ∈ insDesc x l ↔ z = x ∨ z ∈ l := by
  rw [(insDesc_perm x l).mem_iff]
  simp

theorem sortLoop_perm : ∀ (l acc : List (Nat × ℚ)), (sortLoop l acc).Perm (acc ++ l) := by
  intro l
  induction l with
  | nil => intro acc; simp [sortLoop]
  | cons x xs ih =>
    intro acc
    simp only [sortLoop]
    have h1 := (ih (insDesc x acc)).trans ((insDesc_perm x acc).append_right xs)
    exact h1.trans List.perm_middle.symm

theorem insDesc_pairwise (x : Nat × ℚ) (acc : List (Nat × ℚ))
    (hp : acc.Pairwise rankRel) (hk : ∀ y ∈ acc, y.1 < x.1) :
    (insDesc x acc).Pairwise rankRel := by
  induction acc with
  | nil => simp [insDesc, List.pairwise_singleton]
  | cons y ys ih =>
    rw [List.pairwise_cons] at hp
    by_cases hlt : y.2 < x.2
    · simp only [insDesc, hlt, if_true]
      rw [List.pairwise_cons]
      constructor
      · intro z hz
        rcases List.mem_cons.mp hz with hz | hz
        · exact hz ▸ Or.inl hlt
        · rcases hp.1 z hz with h | h
          · exact Or.inl (h.trans hlt)
          · exact Or.inl (h.1 ▸ hlt)
      · rw [List.pairwise_cons]
        exact hp
    · simp only [insDesc, hlt, if_false]
      rw [List.pairwise_cons]
      constructor
      · intro z hz
        rcases (mem_insDesc z x ys).mp hz with hz | hz
        · subst hz
          rcases lt_or_eq_of_le (not_lt.mp hlt) with h | h
          · exact Or.inl h
          · exact Or.inr ⟨h.symm, hk y (List.mem_cons_self _ _)⟩
        · exact hp.1 z hz
      · exact ih hp.2 (fun z hz => hk z (List.mem_cons_of_mem _ hz))

theorem sortLoop_pairwise :
    ∀ (l acc : List (Nat × ℚ)), acc.Pairwise rankRel →
      (∀ y ∈ acc, ∀ z ∈ l, y.1 < z.1) →
      l.Pairwise (fun a b => a.1 < b.1) →
      (sortLoop l acc).Pairwise rankRel := by
  intro l
  induction l with
  | nil => intro acc hacc _ _; simpa [sortLoop] using hacc
  | cons x xs ih =>
    intro acc hacc hkey hl
    rw [List.pairwise_cons] at hl
    simp only [sortLoop]
    apply ih (insDesc x acc)
    · exact insDesc_pairwise x acc hacc
        (fun y hy => hkey y hy x (List.mem_cons_self _ _))
    · intro y hy z hz
      rcases (mem_insDesc y x acc).mp hy with hy | hy
      · exact hy ▸ hl.1 z hz
      · exact hkey y hy z (List.mem_cons_of_mem _ hz)
    · exact hl.2

theorem summary_sentences_length (k : Nat) (scores : List (Nat × ℚ)) :
    (summary_sentences k scores).length = min k scores.length := by
  unfold summary_sentences nlargestScores
  rw [List.length_map, List.length_take, (sortLoop_perm scores []).length_eq]
  simp

theorem select_length_pos (n : Nat) (f : ℚ) : 1 ≤ select_length n f :=
  le_max_left 1 _

/-! Inversion of a successful run of the pipeline. -/

theorem summarize_core_inv (sw : List String) (sents : List (List String)) (f : ℚ)
    (sel : List Nat) (h : summarize_core sw sents f = SummaryResult.summary sel) :
    word_frequencies sw sents.flatten ≠ [] ∧
      sentence_score (normalized_frequencies (word_frequencies sw sents.flatten)) sents ≠ [] ∧
      sel = summary_sentences (select_length sents.length f)
        (sentence_score (normalized_frequencies (word_frequencies sw sents.flatten)) sents) := by
  unfold summarize_core at h
  by_cases h1 : word_frequencies sw sents.flatten = []
  · simp [h1] at h
  · by_cases h2 :
      sentence_score (normalized_frequencies (word_frequencies sw sents.flatten)) sents = []
    · simp [h1, h2] at h
    · simp [h1, h2] at h
      exact ⟨h1, h2, h.symm⟩

theorem summarize_core_success (sw : List String) (sents : List (List String)) (f : ℚ)
    (h1 : word_frequencies sw sents.flatten ≠ [])
    (h2 : sentence_score (normalized_frequencies (word_frequencies sw sents.flatten)) sents ≠ []) :
    summarize_core sw sents f = SummaryResult.summary
      (summary_sentences (select_length sents.length f)
        (sentence_score (normalized_frequencies (word_frequencies sw sents.flatten)) sents)) := by
  unfold summarize_core
  simp [h1, h2]

theorem summarize_text_inv (seg : String → List (List String)) (sw : List String)
    (text : String) (f : ℚ) (sel : List Nat)
    (h : summarize_text seg sw text f = SummaryResult.summary sel) :
    summarize_core sw (seg text) f = SummaryResult.summary sel := by
  unfold summarize_text at h
  by_cases hs : pyStrip text = ""
  · simp [hs] at h
  · rwa [if_neg hs] at h

/-! Remaining supporting lemmas. -/

theorem word_frequencies_counts (sw : List String) (ts : List String) :
    ∀ p ∈ word_frequencies sw ts, 1 ≤ p.2 :=
  countLoop_counts_ge_one sw ts [] (by simp)

theorem normalized_pos (sw : List String) (ts : List String) :
    ∀ p ∈ normalized_frequencies (word_frequencies sw ts), 0 < p.2 := by
  intro p hp
  unfold normalized_frequencies at hp
  obtain ⟨q, hq, rfl⟩ := List.mem_map.mp hp
  have hne : word_frequencies sw ts ≠ [] := by
    intro h
    rw [h] at hq
    exact absurd hq (List.not_mem_nil q)
  have h1 : 1 ≤ q.2 := word_frequencies_counts sw ts q hq
  have hm : 1 ≤ max_frequency (word_frequencies sw ts) :=
    max_frequency_pos _ (word_frequencies_counts sw ts) hne
  exact div_pos (by exact_mod_cast h1) (by exact_mod_cast hm)

theorem getVal_filter_lower (l : List (String × ℚ)) (q : String) (hq : lowerStr q = q) :
    getVal q (l.filter (fun p => lowerStr p.1 == p.1)) = getVal q l := by
  induction l with
  | nil => simp
  | cons p rest ih =>
    by_cases hk : lowerStr p.1 = p.1
    · rw [List.filter_cons_of_pos (by simpa using hk)]
      by_cases he : p.1 = q
      · obtain ⟨a, v⟩ := p
        simp only at he
        subst he
        simp [getVal]
      · obtain ⟨a, v⟩ := p
        simp only at he
        simp [getVal, he, ih]
    · rw [List.filter_cons_of_neg (by simpa using hk)]
      have he : p.1 ≠ q := by
        intro h
        exact hk (by rw [h, hq])
      obtain ⟨a, v⟩ := p
      simp only at he
      simp [getVal, he, ih]

theorem pyStrip_of_all_space (text : String) (h : ∀ c ∈ text.data, pyIsSpace c = true) :
    pyStrip text = "" := by
  unfold pyStrip
  have h1 : text.data.dropWhile pyIsSpace = [] := by
    rw [List.dropWhile_eq_nil_iff]
    exact fun c hc => h c hc
  rw [h1]
  rfl

/-! The claims. -/

/-- Claim C2: for every input whose word-frequency table is non-empty,
after normalisation every value of the table lies in the half-open
interval from 0 (exclusive) to 1 (inclusive), and some entry — one whose
raw count attains the maximum — is exactly 1. -/
theorem claim2_weights_normalized (sw ts : List String)
    (h : word_frequencies sw ts ≠ []) :
    (∀ p ∈ normalized_frequencies (word_frequencies sw ts), 0 < p.2 ∧ p.2 ≤ 1) ∧
      ∃ p ∈ normalized_frequencies (word_frequencies sw ts), p.2 = 1 := by
  have hm : 1 ≤ max_frequency (word_frequencies sw ts) :=
    max_frequency_pos _ (word_frequencies_counts sw ts) h
  have hmpos : (0 : ℚ) < (max_frequency (word_frequencies sw ts) : ℚ) := by
    exact_mod_cast hm
  constructor
  · intro p hp
    refine ⟨normalized_pos sw ts p hp, ?_⟩
    unfold normalized_frequencies at hp
    obtain ⟨q, hq, rfl⟩ := List.mem_map.mp hp
    have hle : q.2 ≤ max_frequency (word_frequencies sw ts) := le_max_frequency _ q hq
    exact (div_le_one hmpos).mpr (by exact_mod_cast hle)
  · obtain ⟨p, hp, hmax⟩ := max_frequency_mem _ h
    refine ⟨(p.1, (p.2 : ℚ) / (max_frequency (word_frequencies sw ts) : ℚ)), ?_, ?_⟩
    · unfold normalized_frequencies
      exact List.mem_map.mpr ⟨p, hp, rfl⟩
    · simp only
      rw [hmax]
      exact div_self (ne_of_gt hmpos)

theorem claim2_witness :
    word_frequencies [] ["cats", "cats", "dogs"] ≠ [] ∧
      ((∀ p ∈ normalized_frequencies (word_frequencies [] ["cats", "cats", "dogs"]),
          0 < p.2 ∧ p.2 ≤ 1) ∧
        ∃ p ∈ normalized_frequencies (word_frequencies [] ["cats", "cats", "dogs"]),
          p.2 = 1) :=
  ⟨by decide, claim2_weights_normalized [] ["cats", "cats", "dogs"] (by decide)⟩

/-- Claim C3 (amended): during frequency counting a token is skipped if
and only if its lowercased form is in the stopword list or occurs as a
contiguous substring of the punctuation string `string.punctuation`
(Python `in` on strings; for single-character tokens this coincides with
being a punctuation character, but longer runs of consecutive
punctuation such as "#$" are also skipped); every non-skipped token
increments a count keyed by its exact surface form, leaving every other
other key count unchanged, so case variants are tracked as distinct keys. -/
theorem claim3_token_filter (sw ts : List String) (t : String) :
    (word_frequencies sw (ts ++ [t]) =
      if isSkippedTok sw t then word_frequencies sw ts
      else bump t (word_frequencies sw ts)) ∧
    (isSkippedTok sw t = (sw.contains (lowerStr t) || strIn (lowerStr t) punctString)) ∧
    (∀ (l : List (String × Nat)) (k : String),
      getVal k (bump k l) = some ((getVal k l).getD 0 + 1)) ∧
    (∀ (l : List (String × Nat)) (k q : String), q ≠ k →
      getVal q (bump k l) = getVal q l) := by
  refine ⟨?_, rfl, fun l k => getVal_bump_self k l, fun l k q hq => getVal_bump_ne k q l hq⟩
  unfold word_frequencies
  rw [countLoop_append sw ts [t]]
  by_cases h : isSkippedTok sw t <;> simp [countLoop, h]

theorem claim3_witness :
    getVal "dogs" (bump "cats" [("dogs", 2)]) = getVal "dogs" [("dogs", 2)] :=
  (claim3_token_filter [] [] "cats").2.2.2 [("dogs", 2)] "cats" "dogs" (by decide)

/-- Claim C3 (counterexample): the token "#$" is skipped by the code
(its count table stays empty) although its lowercased form is neither a
stopword nor a single punctuation character — the Python test `in punctuation`
is substring containment, not single-character membership, so the
stated "if and only if" fails on multi-character punctuation runs. -/
theorem claim3_counterexample :
    word_frequencies [] ["#$"] = [] ∧
      ([] : List String).contains (lowerStr "#$") = false ∧
      singlePunctChar (lowerStr "#$") = false := by decide

/-- Claim C5: a sentence is present in the score dict exactly when it
contains a token whose lowercased form is a key of the weight dict, in
which case its score is the sum of the looked-up weights of its tokens;
a sentence with no weighted token is absent (not present with score 0). -/
theorem claim5_sentence_score (w : List (String × ℚ)) (sents : List (List String))
    (j : Nat) (s : List String) (h : sents.get? j = some s) :
    getVal j (sentence_score w sents) =
      if ∃ t ∈ s, (getVal (lowerStr t) w).isSome then some (sentSum w s) else none := by
  rw [sentence_score_getVal w sents j s h]
  simp [List.any_eq_true]

theorem claim5_witness :
    ([["cats"], ["the"]] : List (List String)).get? 1 = some ["the"] ∧
      getVal 1 (sentence_score [("cats", (1 : ℚ))] [["cats"], ["the"]]) =
        (if ∃ t ∈ ["the"], (getVal (lowerStr t) [("cats", (1 : ℚ))]).isSome
         then some (sentSum [("cats", (1 : ℚ))] ["the"]) else none) :=
  ⟨by decide, claim5_sentence_score [("cats", 1)] [["cats"], ["the"]] 1 ["the"] (by decide)⟩

/-- Claim C7: when the input passes the empty-text guard but every token
is filtered out (stopword or punctuation), `summarize_text` returns the
"no meaningful content" outcome, which is distinct from both the
empty-input and the could-not-score outcomes. -/
theorem claim7_no_meaningful (seg : String → List (List String)) (sw : List String)
    (text : String) (f : ℚ) (h1 : pyStrip text ≠ "")
    (h2 : ∀ t ∈ (seg text).flatten, isSkippedTok sw t = true) :
    summarize_text seg sw text f = SummaryResult.noMeaningfulContent ∧
      SummaryResult.noMeaningfulContent ≠ SummaryResult.emptyInput ∧
      SummaryResult.noMeaningfulContent ≠ SummaryResult.scoringFailed := by
  have hwf : word_frequencies sw (seg text).flatten = [] :=
    countLoop_all_skipped sw _ h2 []
  refine ⟨?_, by simp, by simp⟩
  unfold summarize_text summarize_core
  simp [h1, hwf]

theorem claim7_witness :
    pyStrip "the and" ≠ "" ∧
      (summarize_text (fun _ => [["the", "and"]]) ["the", "and"] "the and" (3/10) =
          SummaryResult.noMeaningfulContent ∧
        SummaryResult.noMeaningfulContent ≠ SummaryResult.emptyInput ∧
        SummaryResult.noMeaningfulContent ≠ SummaryResult.scoringFailed) :=
  ⟨by decide,
    claim7_no_meaningful (fun _ => [["the", "and"]]) ["the", "and"] "the and" (3/10)
      (by decide) (by decide)⟩

/-- Claim C8: an input that is empty or consists only of whitespace is
rejected with the empty-input outcome before the segmenter is ever
consulted — the result is the same for every segmenter `seg`. -/
theorem claim8_empty_input (seg : String → List (List String)) (sw : List String)
    (f : ℚ) (text : String) (h : ∀ c ∈ text.data, pyIsSpace c = true) :
    summarize_text seg sw text f = SummaryResult.emptyInput := by
  unfold summarize_text
  rw [if_pos (pyStrip_of_all_space text h)]

theorem claim8_witness :
    (∀ c ∈ (" \t " : String).data, pyIsSpace c = true) ∧
      summarize_text (fun _ => [["x"]]) [] " \t " (3/10) = SummaryResult.emptyInput :=
  ⟨by decide, claim8_empty_input (fun _ => [["x"]]) [] (3/10) " \t " (by decide)⟩

/-- Claim C10: sentence scoring only ever looks up lowercased token
forms, so removing from the weight dict every key that differs from its
own lowercase form leaves the sentence-score dict unchanged; and under
the pipeline weights every sentence present in the score dict has a
strictly positive score. -/
theorem claim10_dead_keys (w : List (String × ℚ)) (sw tokens : List String)
    (sents : List (List String)) :
    sentence_score (w.filter (fun p => lowerStr p.1 == p.1)) sents =
        sentence_score w sents ∧
      ∀ p ∈ sentence_score (normalized_frequencies (word_frequencies sw tokens)) sents,
        0 < p.2 := by
  constructor
  · unfold sentence_score
    exact scoreLoop_congr _ w
      (fun t => getVal_filter_lower w (lowerStr t) (lowerStr_idem t)) sents 0 []
  · unfold sentence_score
    exact scoreLoop_pos _ (normalized_pos sw tokens) sents 0 [] (by simp)

theorem claim10_witness :
    sentence_score (List.filter (fun p => lowerStr p.1 == p.1) [("Cats", (1 : ℚ))])
        [["cats"]] = sentence_score [("Cats", (1 : ℚ))] [["cats"]] ∧
      ∀ p ∈ sentence_score (normalized_frequencies (word_frequencies [] ["cats"]))
        [["cats"]], 0 < p.2 :=
  claim10_dead_keys [("Cats", 1)] [] ["cats"] [["cats"]]

theorem ratFloor_intFloor (q : ℚ) : q.floor = ⌊q⌋ := by
  rw [Rat.floor_def', ← Rat.floor_def]

theorem core_success_lower_token (sw : List String) (sents : List (List String)) (f : ℚ)
    (t : String) (s : List String) (hs : s ∈ sents) (ht : t ∈ s)
    (hk : isSkippedTok sw t = false) (hl : lowerStr t = t) :
    ∃ sel, summarize_core sw sents f = SummaryResult.summary sel ∧ 1 ≤ sel.length := by
  have htok : t ∈ sents.flatten := List.mem_flatten.mpr ⟨s, hs, ht⟩
  have hwf : (getVal t (word_frequencies sw sents.flatten)).isSome :=
    countLoop_isSome sw t sents.flatten [] (Or.inr ⟨htok, hk⟩)
  have hwfne : word_frequencies sw sents.flatten ≠ [] := by
    intro h
    rw [h] at hwf
    simp [getVal] at hwf
  have hwl : (getVal (lowerStr t)
      (normalized_frequencies (word_frequencies sw sents.flatten))).isSome := by
    obtain ⟨c, hc⟩ := Option.isSome_iff_exists.mp hwf
    rw [hl, getVal_normalized, hc]
    simp
  obtain ⟨j, hj⟩ := List.get?_of_mem hs
  have hssne : sentence_score
      (normalized_frequencies (word_frequencies sw sents.flatten)) sents ≠ [] := by
    intro hnil
    have hget := sentence_score_getVal
      (normalized_frequencies (word_frequencies sw sents.flatten)) sents j s hj
    have hany : s.any (fun u => (getVal (lowerStr u)
        (normalized_frequencies (word_frequencies sw sents.flatten))).isSome) = true :=
      List.any_eq_true.mpr ⟨t, ht, hwl⟩
    rw [hnil, hany] at hget
    simp [getVal] at hget
  refine ⟨_, summarize_core_success sw sents f hwfne hssne, ?_⟩
  rw [summary_sentences_length]
  exact le_min (select_length_pos _ f) (List.length_pos.mpr hssne)

/-- Claim C1 (amended): if the input passes the empty-text guard and its
segmentation has a sentence containing a token that survives the
stopword/punctuation filter and whose surface form equals its own
lowercase form (so the count stored under that surface form is
retrievable by the lowercase lookup of the scoring phase), then
`summarize_text` returns a successful summary with at least one
sentence. -/
theorem claim1_success (seg : String → List (List String)) (sw : List String)
    (text : String) (f : ℚ) (t : String) (s : List String)
    (hstrip : pyStrip text ≠ "") (hs : s ∈ seg text) (ht : t ∈ s)
    (hk : isSkippedTok sw t = false) (hl : lowerStr t = t) :
    ∃ sel, summarize_text seg sw text f = SummaryResult.summary sel ∧ 1 ≤ sel.length := by
  obtain ⟨sel, hsel, hlen⟩ := core_success_lower_token sw (seg text) f t s hs ht hk hl
  refine ⟨sel, ?_, hlen⟩
  unfold summarize_text
  rw [if_neg hstrip]
  exact hsel

theorem claim1_witness :
    pyStrip "cats" ≠ "" ∧ (["cats"] ∈ ([["cats"]] : List (List String))) ∧
      ("cats" ∈ (["cats"] : List String)) ∧
      isSkippedTok [] "cats" = false ∧ lowerStr "cats" = "cats" ∧
      ∃ sel, summarize_text (fun _ => [["cats"]]) [] "cats" (3/10) =
          SummaryResult.summary sel ∧ 1 ≤ sel.length :=
  ⟨by decide, by decide, by decide, by decide, by decide,
    claim1_success (fun _ => [["cats"]]) [] "cats" (3/10) "cats" ["cats"] (by decide)
      (by decide) (by decide) (by decide) (by decide)⟩

/-- Claim C1 (counterexample): the input "Cats", segmented as one
sentence with the single token "Cats", has one sentence and a non-empty
word-frequency table (the key "Cats" with count 1), yet `summarize_text`
returns the could-not-score error: scoring looks up the lowercase form
"cats", which is not a key of the table. -/
theorem claim1_counterexample :
    summarize_text (fun _ => [["Cats"]]) [] "Cats" (3/10) = SummaryResult.scoringFailed ∧
      word_frequencies [] ([["Cats"]] : List (List String)).flatten ≠ [] ∧
      1 ≤ ([["Cats"]] : List (List String)).length := by
  refine ⟨?_, by decide, by decide⟩
  with_unfolding_all decide

theorem core_summary_length (sw : List String) (sents : List (List String)) (f : ℚ)
    (sel : List Nat) (h : summarize_core sw sents f = SummaryResult.summary sel) :
    sel.length = min (select_length sents.length f)
        (sentence_score (normalized_frequencies (word_frequencies sw sents.flatten))
          sents).length ∧
      1 ≤ sel.length ∧ sel.length ≤ sents.length := by
  obtain ⟨h1, h2, h3⟩ := summarize_core_inv sw sents f sel h
  subst h3
  rw [summary_sentences_length]
  refine ⟨rfl, ?_, ?_⟩
  · exact le_min (select_length_pos _ f) (List.length_pos.mpr h2)
  · exact le_trans (min_le_right _ _) (sentence_score_length_le _ sents)

/-- Claim C4 (amended): on every successful call of `summarize_text` the
number of summary sentences is the minimum of
`max(1, int(total * fraction))` and the number of scored sentences
(`nlargest` cannot return more entries than the score dict holds); it
is always at least 1 and never exceeds the total sentence count. -/
theorem claim4_summary_length (seg : String → List (List String)) (sw : List String)
    (text : String) (f : ℚ) (sel : List Nat)
    (h : summarize_text seg sw text f = SummaryResult.summary sel) :
    sel.length = min (select_length (seg text).length f)
        (sentence_score (normalized_frequencies (word_frequencies sw (seg text).flatten))
          (seg text)).length ∧
      1 ≤ sel.length ∧ sel.length ≤ (seg text).length :=
  core_summary_length sw (seg text) f sel (summarize_text_inv seg sw text f sel h)

theorem claim4_witness :
    summarize_text (fun _ => [["cats"]]) [] "cats" (3/10) = SummaryResult.summary [0] ∧
      (([0] : List Nat).length = min (select_length ([["cats"]] : List (List String)).length (3/10))
          (sentence_score (normalized_frequencies
            (word_frequencies [] ([["cats"]] : List (List String)).flatten)) [["cats"]]).length ∧
        1 ≤ ([0] : List Nat).length ∧
        ([0] : List Nat).length ≤ ([["cats"]] : List (List String)).length) :=
  ⟨by with_unfolding_all decide,
    claim4_summary_length (fun _ => [["cats"]]) [] "cats" (3/10) [0]
      (by with_unfolding_all decide)⟩

/-- Claim C4 (counterexample): with stopword "the", sentences
["cats"], ["the"], ["the"] and fraction 1, the formula gives
`max(1, int(3 * 1)) = 3` but only one sentence is scored, so the summary
has 1 sentence, not 3. -/
theorem claim4_counterexample :
    summarize_core ["the"] [["cats"], ["the"], ["the"]] 1 = SummaryResult.summary [0] ∧
      select_length 3 1 = 3 ∧ ([0] : List Nat).length ≠ select_length 3 1 := by
  refine ⟨?_, ?_, ?_⟩ <;> with_unfolding_all decide

theorem core_emission_order (sw : List String) (sents : List (List String)) (f : ℚ)
    (sel : List Nat) (h : summarize_core sw sents f = SummaryResult.summary sel) :
    sel.Pairwise (fun a b => scoreOf sw sents b < scoreOf sw sents a ∨
      (scoreOf sw sents a = scoreOf sw sents b ∧ a < b)) := by
  obtain ⟨h1, h2, h3⟩ := summarize_core_inv sw sents f sel h
  subst h3
  set w := normalized_frequencies (word_frequencies sw sents.flatten) with hw
  set scores := sentence_score w sents with hscores
  have hkeys := (sentence_score_keys w sents).1
  have hkeysNd : (scores.map Prod.fst).Nodup := hkeys.imp (fun h => Nat.ne_of_lt h)
  have hpair : scores.Pairwise (fun a b : Nat × ℚ => a.1 < b.1) :=
    (List.pairwise_map).mp hkeys
  have hsorted : (sortLoop scores []).Pairwise rankRel :=
    sortLoop_pairwise scores [] (by simp) (by simp) hpair
  have htake : ((sortLoop scores []).take (select_length sents.length f)).Pairwise rankRel :=
    hsorted.sublist (List.take_sublist _ _)
  have hmem : ∀ p ∈ (sortLoop scores []).take (select_length sents.length f),
      getVal p.1 scores = some p.2 := by
    intro p hp
    have hp1 : p ∈ sortLoop scores [] := (List.take_sublist _ _).subset hp
    have hp2 : p ∈ scores := by
      simpa using (sortLoop_perm scores []).mem_iff.mp hp1
    exact getVal_of_mem_nodup hkeysNd hp2
  unfold summary_sentences nlargestScores
  rw [List.pairwise_map]
  refine List.Pairwise.imp_of_mem ?_ htake
  intro a b ha hb hab
  have hsa : scoreOf sw sents a.1 = a.2 := by
    unfold scoreOf
    rw [← hw, ← hscores, hmem a ha]
    rfl
  have hsb : scoreOf sw sents b.1 = b.2 := by
    unfold scoreOf
    rw [← hw, ← hscores, hmem b hb]
    rfl
  rcases hab with hab | hab
  · exact Or.inl (by rw [hsa, hsb]; exact hab)
  · exact Or.inr ⟨by rw [hsa, hsb]; exact hab.1, hab.2⟩

theorem core_selection_boundary (sw : List String) (sents : List (List String))
    (f : ℚ) (sel : List Nat) (h : summarize_core sw sents f = SummaryResult.summary sel) :
    ∀ i j, i ∈ sel → j ∉ sel →
      getVal j (sentence_score (normalized_frequencies
        (word_frequencies sw sents.flatten)) sents) ≠ none →
      scoreOf sw sents j < scoreOf sw sents i ∨
        (scoreOf sw sents i = scoreOf sw sents j ∧ i < j) := by
  obtain ⟨h1, h2, h3⟩ := summarize_core_inv sw sents f sel h
  subst h3
  set w := normalized_frequencies (word_frequencies sw sents.flatten) with hw
  set scores := sentence_score w sents with hscores
  intro i j hi hj hjs
  have hkeys := (sentence_score_keys w sents).1
  have hkeysNd : (scores.map Prod.fst).Nodup := hkeys.imp (fun h => Nat.ne_of_lt h)
  have hpair : scores.Pairwise (fun a b : Nat × ℚ => a.1 < b.1) :=
    (List.pairwise_map).mp hkeys
  have hsorted : (sortLoop scores []).Pairwise rankRel :=
    sortLoop_pairwise scores [] (by simp) (by simp) hpair
  unfold summary_sentences nlargestScores at hi hj
  obtain ⟨p, hpTake, hpfst⟩ := List.mem_map.mp hi
  have hpSorted : p ∈ sortLoop scores [] := (List.take_sublist _ _).subset hpTake
  have hpScores : p ∈ scores := by
    simpa using (sortLoop_perm scores []).mem_iff.mp hpSorted
  have hgi : getVal i scores = some p.2 := by
    rw [← hpfst]
    exact getVal_of_mem_nodup hkeysNd hpScores
  obtain ⟨v, hv⟩ := Option.ne_none_iff_exists'.mp hjs
  have hq : (j, v) ∈ scores := getVal_mem hv
  have hqSorted : (j, v) ∈ sortLoop scores [] :=
    (sortLoop_perm scores []).mem_iff.mpr (by simpa using hq)
  have hqNotTake : (j, v) ∉ (sortLoop scores []).take (select_length sents.length f) := by
    intro hmem
    exact hj (List.mem_map.mpr ⟨(j, v), hmem, rfl⟩)
  have hqDrop : (j, v) ∈ (sortLoop scores []).drop (select_length sents.length f) := by
    have hsplit : (j, v) ∈ (sortLoop scores []).take (select_length sents.length f) ++
        (sortLoop scores []).drop (select_length sents.length f) := by
      rw [List.take_append_drop]
      exact hqSorted
    rcases List.mem_append.mp hsplit with hm | hm
    · exact absurd hm hqNotTake
    · exact hm
  have hcross : rankRel p (j, v) := by
    have hsp : ((sortLoop scores []).take (select_length sents.length f) ++
        (sortLoop scores []).drop (select_length sents.length f)).Pairwise rankRel := by
      rw [List.take_append_drop]
      exact hsorted
    exact (List.pairwise_append.mp hsp).2.2 p hpTake (j, v) hqDrop
  have hsi : scoreOf sw sents i = p.2 := by
    unfold scoreOf
    rw [← hw, ← hscores, hgi]
    rfl
  have hsj : scoreOf sw sents j = v := by
    unfold scoreOf
    rw [← hw, ← hscores, hv]
    rfl
  rcases hcross with hc | hc
  · exact Or.inl (by rw [hsi, hsj]; exact hc)
  · exact Or.inr ⟨by rw [hsi, hsj]; exact hc.1, hpfst ▸ hc.2⟩

/-- Claim C6: the sentences selected by `summarize_text` are emitted in
score-descending order, with equal scores emitted in favour of the
sentence encountered earlier in the original segmentation traversal
order (smaller index) — not in general the original document order;
and the selection itself resolves ties deterministically toward the
earlier-encountered sentence: every scored sentence left out of the
summary either scores strictly less than every selected sentence or
ties with it and occurs later in traversal order (so a tie at the
take-k boundary always keeps the earlier sentence). -/
theorem claim6_emission_order (seg : String → List (List String)) (sw : List String)
    (text : String) (f : ℚ) (sel : List Nat)
    (h : summarize_text seg sw text f = SummaryResult.summary sel) :
    sel.Pairwise (fun a b => scoreOf sw (seg text) b < scoreOf sw (seg text) a ∨
      (scoreOf sw (seg text) a = scoreOf sw (seg text) b ∧ a < b)) ∧
    ∀ i j, i ∈ sel → j ∉ sel →
      getVal j (sentence_score (normalized_frequencies
        (word_frequencies sw (seg text).flatten)) (seg text)) ≠ none →
      scoreOf sw (seg text) j < scoreOf sw (seg text) i ∨
        (scoreOf sw (seg text) i = scoreOf sw (seg text) j ∧ i < j) :=
  ⟨core_emission_order sw (seg text) f sel (summarize_text_inv seg sw text f sel h),
    core_selection_boundary sw (seg text) f sel (summarize_text_inv seg sw text f sel h)⟩

theorem claim6_witness :
    summarize_text (fun _ => [["cats"], ["cats"]]) [] "cats. cats" (1/2) =
        SummaryResult.summary [0] ∧
      (([0] : List Nat).Pairwise (fun a b =>
          scoreOf [] [["cats"], ["cats"]] b < scoreOf [] [["cats"], ["cats"]] a ∨
            (scoreOf [] [["cats"], ["cats"]] a = scoreOf [] [["cats"], ["cats"]] b ∧
              a < b)) ∧
        ∀ i j, i ∈ ([0] : List Nat) → j ∉ ([0] : List Nat) →
          getVal j (sentence_score (normalized_frequencies
            (word_frequencies [] ([["cats"], ["cats"]] : List (List String)).flatten))
              [["cats"], ["cats"]]) ≠ none →
          scoreOf [] [["cats"], ["cats"]] j < scoreOf [] [["cats"], ["cats"]] i ∨
            (scoreOf [] [["cats"], ["cats"]] i = scoreOf [] [["cats"], ["cats"]] j ∧
              i < j)) :=
  ⟨by with_unfolding_all decide,
    claim6_emission_order (fun _ => [["cats"], ["cats"]]) [] "cats. cats" (1/2) [0]
      (by with_unfolding_all decide)⟩

theorem select_length_mono (n : Nat) (f1 f2 : ℚ) (h0 : 0 ≤ f1) (h : f1 ≤ f2) :
    select_length n f1 ≤ select_length n f2 := by
  unfold select_length truncQ
  have hn : (0 : ℚ) ≤ (n : ℚ) := by positivity
  have ha : 0 ≤ (n : ℚ) * f1 := mul_nonneg hn h0
  have hb : 0 ≤ (n : ℚ) * f2 := le_trans ha (mul_le_mul_of_nonneg_left h hn)
  rw [if_pos ha, if_pos hb, ratFloor_intFloor, ratFloor_intFloor]
  exact max_le_max (le_refl 1)
    (Int.toNat_le_toNat (Int.floor_le_floor (mul_le_mul_of_nonneg_left h hn)))

theorem select_length_one (n : Nat) : select_length n 1 = max 1 n := by
  unfold select_length truncQ
  rw [if_pos (by positivity), mul_one, ratFloor_intFloor, Int.floor_natCast,
    Int.toNat_natCast]

theorem core_monotone_boundary (sw : List String) (sents : List (List String))
    (f1 f2 : ℚ) (h0 : 0 < f1) (h12 : f1 ≤ f2) (_hb1 : f2 ≤ 1) :
    (∀ sel1 sel2, summarize_core sw sents f1 = SummaryResult.summary sel1 →
      summarize_core sw sents f2 = SummaryResult.summary sel2 →
      sel1.length ≤ sel2.length) ∧
    (∀ sel, summarize_core sw sents 1 = SummaryResult.summary sel →
      ∀ i, i ∈ sel ↔ getVal i (sentence_score (normalized_frequencies
        (word_frequencies sw sents.flatten)) sents) ≠ none) := by
  constructor
  · intro sel1 sel2 hs1 hs2
    obtain ⟨_, hsc1, he1⟩ := summarize_core_inv sw sents f1 sel1 hs1
    obtain ⟨_, _, he2⟩ := summarize_core_inv sw sents f2 sel2 hs2
    subst he1
    subst he2
    rw [summary_sentences_length, summary_sentences_length]
    exact min_le_min (select_length_mono sents.length f1 f2 (le_of_lt h0) h12)
      (le_refl _)
  · intro sel hsel i
    obtain ⟨hwf, hsc, he⟩ := summarize_core_inv sw sents 1 sel hsel
    subst he
    set w := normalized_frequencies (word_frequencies sw sents.flatten) with hw
    set scores := sentence_score w sents with hscores
    have hsl : scores.length ≤ select_length sents.length 1 := by
      rw [select_length_one]
      exact le_trans (sentence_score_length_le w sents) (le_max_right 1 _)
    have hlen : (sortLoop scores []).length = scores.length := by
      have := (sortLoop_perm scores []).length_eq
      simpa using this
    unfold summary_sentences nlargestScores
    rw [List.take_of_length_le (by rw [hlen]; exact hsl)]
    constructor
    · intro hi
      obtain ⟨p, hp, hpe⟩ := List.mem_map.mp hi
      have hp2 : p ∈ scores := by
        simpa using (sortLoop_perm scores []).mem_iff.mp hp
      have hk : (getVal i scores).isSome := by
        rw [getVal_isSome_iff]
        exact hpe ▸ List.mem_map_of_mem Prod.fst hp2
      intro hnone
      rw [hnone] at hk
      simp at hk
    · intro hne
      have hisome : (getVal i scores).isSome := Option.ne_none_iff_isSome.mp hne
      have hkey : i ∈ scores.map Prod.fst := (getVal_isSome_iff i scores).mp hisome
      obtain ⟨p, hp, hpe⟩ := List.mem_map.mp hkey
      refine List.mem_map.mpr ⟨p, ?_, hpe⟩
      exact (sortLoop_perm scores []).mem_iff.mpr (by simpa using hp)

/-- Claim C9: for a fixed input text and segmentation, a larger fraction
never makes `summarize_text` select fewer sentences; and at fraction 1
exactly the scored sentences are selected (a sentence is in the summary
iff it has an entry in the score dict — unscored sentences are never
selectable). -/
theorem claim9_monotone_boundary (seg : String → List (List String)) (sw : List String)
    (text : String) (f1 f2 : ℚ) (h0 : 0 < f1) (h12 : f1 ≤ f2) (hb1 : f2 ≤ 1) :
    (∀ sel1 sel2, summarize_text seg sw text f1 = SummaryResult.summary sel1 →
      summarize_text seg sw text f2 = SummaryResult.summary sel2 →
      sel1.length ≤ sel2.length) ∧
    (∀ sel, summarize_text seg sw text 1 = SummaryResult.summary sel →
      ∀ i, i ∈ sel ↔ getVal i (sentence_score (normalized_frequencies
        (word_frequencies sw (seg text).flatten)) (seg text)) ≠ none) := by
  obtain ⟨hmono, hbound⟩ := core_monotone_boundary sw (seg text) f1 f2 h0 h12 hb1
  constructor
  · intro sel1 sel2 hs1 hs2
    exact hmono sel1 sel2 (summarize_text_inv seg sw text f1 sel1 hs1)
      (summarize_text_inv seg sw text f2 sel2 hs2)
  · intro sel hsel
    exact hbound sel (summarize_text_inv seg sw text 1 sel hsel)

theorem claim9_witness :
    (0 : ℚ) < 1/2 ∧ (1 : ℚ)/2 ≤ 1 ∧ (1 : ℚ) ≤ 1 ∧
      ((∀ sel1 sel2,
          summarize_text (fun _ => [["cats"]]) [] "cats" (1/2) = SummaryResult.summary sel1 →
          summarize_text (fun _ => [["cats"]]) [] "cats" 1 = SummaryResult.summary sel2 →
          sel1.length ≤ sel2.length) ∧
        (∀ sel, summarize_text (fun _ => [["cats"]]) [] "cats" 1 = SummaryResult.summary sel →
          ∀ i, i ∈ sel ↔ getVal i (sentence_score (normalized_frequencies
            (word_frequencies [] ([["cats"]] : List (List String)).flatten))
              [["cats"]]) ≠ none)) :=
  ⟨by norm_num, by norm_num, le_refl 1,
    claim9_monotone_boundary (fun _ => [["cats"]]) [] "cats" (1/2) 1 (by norm_num)
      (by norm_num) (le_refl 1)⟩
